import Mathlib

/-!
# Verification of the personal-blog post repository (src/script.js)

A shallow embedding of the blog application's core: the JSON persistence
layer (`savePosts` / `loadPosts` over `localStorage`), the post repository
(`addPost`, `updatePost`, `deletePost`, `getPostById`, `addRating`,
`getAverageRating`, `getRatingCount`, `incrementViews`), and the
list/detail view-state controller (`showPostDetail`, `handleRatingClick`).

Modelling conventions:
* JS numbers that the program stores are integers (ids are strings,
  timestamps and view counters are integers, ratings are `parseInt`
  results); they are embedded as `Int`.  The one fractional computation,
  `(sum / ratings.length).toFixed(1)`, is embedded over `ℚ`.
* `JSON.stringify` / `JSON.parse` are embedded as an executable
  serializer and a fuel-bounded recursive-descent parser over a `Json`
  syntax tree.  JSON numbers are modelled as integers (the only numbers
  the program ever persists); `\uXXXX` escapes and fractional/exponent
  literals are outside the model.
* `localStorage` is a single `Option String` cell; every persistence
  call is counted so that "no persistence call" is statable.
* `Date.now()` and `generateId()` are nondeterministic inputs; they are
  passed to the operations as explicit arguments.
-/

namespace Blog

/-! ## JSON values

The grammar of what `JSON.parse` produces and `JSON.stringify` consumes,
with numbers restricted to the integers the program persists.  Object
member order is insertion order, exactly as in JS. -/

inductive Json where
  | null : Json
  | bool (b : Bool) : Json
  | num (n : Int) : Json
  | str (s : List Char) : Json
  | arr (elems : List Json) : Json
  | obj (members : List (List Char × Json)) : Json
deriving Repr

/-! ## JSON.stringify -/

/-- Decimal digits of a natural number, most significant first; the fuel
argument is structural only (`n + 1` always suffices). -/
def natDigitsAux : Nat → Nat → List Char
  | 0, _ => []
  | fuel + 1, n =>
    if n < 10 then [Char.ofNat (48 + n)]
    else natDigitsAux fuel (n / 10) ++ [Char.ofNat (48 + n % 10)]

def natDigits (n : Nat) : List Char := natDigitsAux (n + 1) n

/-- Decimal rendering of an integer, as `JSON.stringify` emits it. -/
def intDigits (n : Int) : List Char :=
  if n < 0 then '-' :: natDigits (-n).toNat else natDigits n.toNat

/-- The escape sequence `JSON.stringify` uses for one character of a
string.  Control characters other than the five named escapes would be
emitted as `\uXXXX`; they are outside the model (see `goodChar`). -/
def escChar (c : Char) : List Char :=
  if c = '"' then ['\\', '"']
  else if c = '\\' then ['\\', '\\']
  else if c = '\n' then ['\\', 'n']
  else if c = '\t' then ['\\', 't']
  else if c = '\r' then ['\\', 'r']
  else if c = Char.ofNat 8 then ['\\', 'b']
  else if c = Char.ofNat 12 then ['\\', 'f']
  else [c]

def escStr : List Char → List Char
  | [] => []
  | c :: cs => escChar c ++ escStr cs

/-- Characters whose `JSON.stringify` escape is covered by the model:
everything except control characters below U+0020 that are not one of
the five named escapes. -/
def goodChar (c : Char) : Bool :=
  decide (32 ≤ c.toNat) || c = '\n' || c = '\t' || c = '\r' ||
    c = Char.ofNat 8 || c = Char.ofNat 12

mutual

/-- `JSON.stringify(v)`: no whitespace, object members in insertion
order, strings escaped. -/
def stringifyChars : Json → List Char
  | .null => "null".data
  | .bool true => "true".data
  | .bool false => "false".data
  | .num n => intDigits n
  | .str s => '"' :: escStr s ++ ['"']
  | .arr xs => '[' :: stringifyElems xs ++ [']']
  | .obj kvs => '{' :: stringifyMembers kvs ++ ['}']

def stringifyElems : List Json → List Char
  | [] => []
  | [x] => stringifyChars x
  | x :: y :: xs => stringifyChars x ++ ',' :: stringifyElems (y :: xs)

def stringifyMembers : List (List Char × Json) → List Char
  | [] => []
  | [(k, v)] => '"' :: escStr k ++ '"' :: ':' :: stringifyChars v
  | (k, v) :: m :: kvs =>
    ('"' :: escStr k ++ '"' :: ':' :: stringifyChars v) ++ ',' :: stringifyMembers (m :: kvs)

end

mutual

/-- All strings in the value stay inside the modelled escape repertoire. -/
def goodJ : Json → Bool
  | .null => true
  | .bool _ => true
  | .num _ => true
  | .str s => s.all goodChar
  | .arr xs => goodElems xs
  | .obj kvs => goodMembers kvs

def goodElems : List Json → Bool
  | [] => true
  | x :: xs => goodJ x && goodElems xs

def goodMembers : List (List Char × Json) → Bool
  | [] => true
  | (k, v) :: kvs => k.all goodChar && goodJ v && goodMembers kvs

end

mutual

/-- Number of nodes of a JSON value; bounds the parser fuel. -/
def sizeJ : Json → Nat
  | .arr xs => 1 + sizeElems xs
  | .obj kvs => 1 + sizeMembers kvs
  | _ => 1

def sizeElems : List Json → Nat
  | [] => 0
  | x :: xs => sizeJ x + sizeElems xs

def sizeMembers : List (List Char × Json) → Nat
  | [] => 0
  | kv :: kvs => sizeJ kv.2 + sizeMembers kvs

end

/-! ## JSON.parse -/

def isWsChar (c : Char) : Bool :=
  c = ' ' || c = '\t' || c = '\n' || c = '\r'

def skipWs : List Char → List Char
  | [] => []
  | c :: cs => if isWsChar c then skipWs cs else c :: cs

/-- Consume an expected literal suffix of a keyword. -/
def eatChars : List Char → List Char → Option (List Char)
  | [], cs => some cs
  | _ :: _, [] => none
  | e :: es, c :: cs => if c = e then eatChars es cs else none

def unescapeChar (c : Char) : Option Char :=
  if c = '"' then some '"'
  else if c = '\\' then some '\\'
  else if c = '/' then some '/'
  else if c = 'n' then some '\n'
  else if c = 't' then some '\t'
  else if c = 'r' then some '\r'
  else if c = 'b' then some (Char.ofNat 8)
  else if c = 'f' then some (Char.ofNat 12)
  else none

/-- String body after the opening quote: plain characters and the named
escapes, up to the closing quote. -/
def parseStrBody : List Char → Option (List Char × List Char)
  | [] => none
  | c :: cs =>
    if c = '"' then some ([], cs)
    else if c = '\\' then
      match cs with
      | [] => none
      | e :: cs2 =>
        match unescapeChar e, parseStrBody cs2 with
        | some d, some (s, r) => some (d :: s, r)
        | _, _ => none
    else if c.toNat < 32 then none
    else
      match parseStrBody cs with
      | some (s, r) => some (c :: s, r)
      | none => none

/-- Consume a maximal run of decimal digits into an accumulator. -/
def parseDigits : Nat → List Char → Nat × List Char
  | acc, [] => (acc, [])
  | acc, c :: cs =>
    if c.isDigit then parseDigits (acc * 10 + (c.toNat - 48)) cs
    else (acc, c :: cs)

/-- The input does not continue with a digit — the shape of every
suffix that follows a serialized number (`,`, `]`, `}` or the end). -/
def headNotDigit (cs : List Char) : Bool :=
  match cs with
  | c :: _ => !c.isDigit
  | [] => true

/-- Array tail: one value, then `,` and more elements or the closing
bracket.  `pv` parses one value; the fuel bounds the element count. -/
def parseElemsF (pv : List Char → Option (Json × List Char)) :
    Nat → List Char → Option (List Json × List Char)
  | 0, _ => none
  | efuel + 1, cs =>
    match pv cs with
    | none => none
    | some (v, r) =>
      match skipWs r with
      | [] => none
      | c :: r2 =>
        if c = ',' then
          match parseElemsF pv efuel r2 with
          | some (vs, r3) => some (v :: vs, r3)
          | none => none
        else if c = ']' then some ([v], r2)
        else none

/-- Object tail: a quoted key, `:`, a value, then `,` and more members
or the closing brace. -/
def parseMembersF (pv : List Char → Option (Json × List Char)) :
    Nat → List Char → Option (List (List Char × Json) × List Char)
  | 0, _ => none
  | mfuel + 1, cs =>
    match skipWs cs with
    | c :: rest =>
      if c = '"' then
        match parseStrBody rest with
        | none => none
        | some (k, r) =>
          match skipWs r with
          | [] => none
          | c2 :: r2 =>
            if c2 = ':' then
              match pv r2 with
              | none => none
              | some (v, r3) =>
                match skipWs r3 with
                | [] => none
                | c3 :: r4 =>
                  if c3 = ',' then
                    match parseMembersF pv mfuel r4 with
                    | some (kvs, r5) => some ((k, v) :: kvs, r5)
                    | none => none
                  else if c3 = '}' then some ([(k, v)], r4)
                  else none
            else none
      else none
    | [] => none

/-- One step of the value parser: every case of the JSON grammar, with
`pv` used for the values nested inside an array or object. -/
def parseValStep (pv : List Char → Option (Json × List Char))
    (cs : List Char) : Option (Json × List Char) :=
    match skipWs cs with
    | [] => none
    | c :: rest =>
      if c = 'n' then
        match eatChars ['u', 'l', 'l'] rest with
        | some r => some (.null, r)
        | none => none
      else if c = 't' then
        match eatChars ['r', 'u', 'e'] rest with
        | some r => some (.bool true, r)
        | none => none
      else if c = 'f' then
        match eatChars ['a', 'l', 's', 'e'] rest with
        | some r => some (.bool false, r)
        | none => none
      else if c = '"' then
        match parseStrBody rest with
        | some (s, r) => some (.str s, r)
        | none => none
      else if c = '-' then
        match rest with
        | d :: _ =>
          if d.isDigit then
            let (n, r) := parseDigits 0 rest
            some (.num (-(n : Int)), r)
          else none
        | [] => none
      else if c = '[' then
        match skipWs rest with
        | [] => none
        | c2 :: r2 =>
          if c2 = ']' then some (.arr [], r2)
          else
            match parseElemsF pv (rest.length + 1) rest with
            | some (xs, r) => some (.arr xs, r)
            | none => none
      else if c = '{' then
        match skipWs rest with
        | [] => none
        | c2 :: r2 =>
          if c2 = '}' then some (.obj [], r2)
          else
            match parseMembersF pv (rest.length + 1) rest with
            | some (kvs, r) => some (.obj kvs, r)
            | none => none
      else if c.isDigit then
        let (n, r) := parseDigits 0 (c :: rest)
        some (.num (n : Int), r)
      else none

/-- One JSON value.  The fuel bounds the nesting depth; the element
fuel inside `parseValStep` is refreshed from the input length. -/
def parseVal : Nat → List Char → Option (Json × List Char)
  | 0, _ => none
  | fuel + 1, cs => parseValStep (parseVal fuel) cs

/-- `JSON.parse(s)`: one value, nothing but whitespace after it;
`none` models the thrown `SyntaxError`. -/
def parseJson (s : String) : Option Json :=
  match parseVal (s.length + 1) s.data with
  | some (j, rest) => if skipWs rest = [] then some j else none
  | none => none

def stringifyJson (j : Json) : String := ⟨stringifyChars j⟩

/-! ## Persistence adapter (script.js lines 59–79)

The store is the `personalBlogPosts` cell of `localStorage`.  At this
layer the in-memory `posts` array is exactly the parsed JSON value, as
it is in JS. -/

/-- `savePosts` at the storage layer: `localStorage.setItem(STORAGE_KEY,
JSON.stringify(posts))`. -/
def saveStore (j : Json) : Option String := some (stringifyJson j)

/-- `loadPosts`: read the key, `JSON.parse` the value, and return `[]`
when the key is absent (or holds the empty, falsy string) or the value
fails to parse — the `catch` branch. -/
def loadStore (store : Option String) : Json :=
  match store with
  | none => .arr []
  | some s =>
    match parseJson s with
    | some j => j
    | none => .arr []

/-! ## Posts and the repository (script.js lines 85–244)

`ratings` and `views` are `Option`s because posts persisted by an older
version of the program lack those keys; `none` models the absent field
(`!post.ratings` / `typeof post.views !== "number"`). -/

structure Post where
  id : String
  title : String
  content : String
  timestamp : Int
  ratings : Option (List Int)
  views : Option Int
deriving Repr, DecidableEq

/-- The JSON object a post serializes to, keys in JS insertion order;
absent optional fields produce no key. -/
def jsonOfPost (p : Post) : Json :=
  .obj ([("id".data, .str p.id.data),
         ("title".data, .str p.title.data),
         ("content".data, .str p.content.data),
         ("timestamp".data, .num p.timestamp)] ++
    (match p.ratings with
     | some rs => [("ratings".data, .arr (rs.map .num))]
     | none => []) ++
    (match p.views with
     | some v => [("views".data, .num v)]
     | none => []))

/-- The repository's state: the in-memory `posts` array, the
`localStorage` cell, and a counter of `savePosts` calls (so that
"makes no persistence call" is a statable fact). -/
structure RepoState where
  posts : List Post
  store : Option String
  saves : Nat
deriving Repr, DecidableEq

/-- `savePosts()` as used by every mutating repository operation. -/
def savePosts (st : RepoState) : RepoState :=
  { st with
    store := some (stringifyJson (.arr (st.posts.map jsonOfPost))),
    saves := st.saves + 1 }

/-- `posts.find(post => post.id === id) || null`. -/
def getPostById (ps : List Post) (id : String) : Option Post :=
  ps.find? (fun p => p.id = id)

/-- `posts.findIndex(...) !== -1`. -/
def hasId (ps : List Post) (id : String) : Bool :=
  ps.any (fun p => p.id = id)

/-- In-place mutation of the element at the index found by
`findIndex(post => post.id === id)`: rewrite the first match. -/
def updateFirst (ps : List Post) (id : String) (f : Post → Post) : List Post :=
  match ps with
  | [] => []
  | p :: rest => if p.id = id then f p :: rest else p :: updateFirst rest id f

/-- `posts.splice(postIndex, 1)` at the index found by `findIndex`:
remove the first match. -/
def removeFirst (ps : List Post) (id : String) : List Post :=
  match ps with
  | [] => []
  | p :: rest => if p.id = id then rest else p :: removeFirst rest id

/-- `String.prototype.trim()`: strip leading and trailing whitespace.
Defined over the character list so that it evaluates inside the
kernel. -/
def jsTrim (s : String) : String :=
  ⟨((s.data.dropWhile Char.isWhitespace).reverse.dropWhile Char.isWhitespace).reverse⟩

/-- `addPost(title, content)`; `freshId` and `now` stand for
`generateId()` and `Date.now()`. -/
def addPost (st : RepoState) (freshId : String) (now : Int)
    (title content : String) : RepoState × Post :=
  let post : Post :=
    { id := freshId, title := jsTrim title, content := jsTrim content,
      timestamp := now, ratings := some [], views := some 0 }
  (savePosts { st with posts := post :: st.posts }, post)

/-- `updatePost(id, title, content)`. -/
def updatePost (st : RepoState) (id title content : String) (now : Int) :
    RepoState × Bool :=
  if hasId st.posts id then
    (savePosts { st with
        posts := updateFirst st.posts id (fun p =>
          { p with title := jsTrim title, content := jsTrim content,
                   timestamp := now }) }, true)
  else (st, false)

/-- `deletePost(id)`. -/
def deletePost (st : RepoState) (id : String) : RepoState × Bool :=
  if hasId st.posts id then
    (savePosts { st with posts := removeFirst st.posts id }, true)
  else (st, false)

/-- `addRating(postId, rating)`: initialize a missing `ratings` array,
then push. -/
def addRating (st : RepoState) (id : String) (r : Int) : RepoState × Bool :=
  if hasId st.posts id then
    (savePosts { st with
        posts := updateFirst st.posts id (fun p =>
          { p with ratings := some (p.ratings.getD [] ++ [r]) }) }, true)
  else (st, false)

/-- `incrementViews(postId)`: reset a non-numeric `views` to 0, then
`views++`. -/
def incrementViews (st : RepoState) (id : String) : RepoState × Bool :=
  if hasId st.posts id then
    (savePosts { st with
        posts := updateFirst st.posts id (fun p =>
          { p with views := some (p.views.getD 0 + 1) }) }, true)
  else (st, false)

/-! ## Derived metrics (script.js lines 188–226) -/

/-- A JS value at the `getAverageRating` interface: the function
returns the number `0` or the string produced by `toFixed(1)`. -/
inductive JsVal where
  | num (q : ℚ)
  | str (s : String)
deriving Repr, DecidableEq

/-- `ratings.reduce((acc, rating) => acc + rating, 0)`. -/
def ratingsSum (rs : List Int) : Int := rs.sum

/-- The integer `n` of the ECMAScript `toFixed(1)` algorithm: `n / 10`
is nearest to the argument, ties to the larger `n`.  For the
nonnegative arguments this program produces, `n = ⌊10q + 1/2⌋`. -/
def toFixed1Int (q : ℚ) : Int := ⌊10 * q + 1 / 2⌋

/-- `q.toFixed(1)` for the nonnegative arguments this program
produces: the rounded value printed with exactly one decimal. -/
def jsToFixed1 (q : ℚ) : String :=
  toString (toFixed1Int q / 10) ++ "." ++ toString (toFixed1Int q % 10)

/-- `getAverageRating(post)`: the number `0` when `ratings` is absent
or empty, otherwise `(sum / ratings.length).toFixed(1)` — a string. -/
def getAverageRating (p : Post) : JsVal :=
  match p.ratings with
  | none => .num 0
  | some rs =>
    if rs.length = 0 then .num 0
    else .str (jsToFixed1 ((ratingsSum rs : ℚ) / rs.length))

/-- `getRatingCount(post)`. -/
def getRatingCount (p : Post) : Nat :=
  match p.ratings with
  | some rs => rs.length
  | none => 0

/-- The spec's words for `averageRating`: "arithmetic mean of
`ratings`, rounded to one decimal place; returns 0 if `ratings` is
empty".  Stated independently of the code, for refinement. -/
def specAverageRating (rs : List Int) : ℚ :=
  if rs = [] then 0
  else (round ((10 : ℚ) * ((rs.sum : ℚ) / rs.length)) : ℚ) / 10

/-- The numeric value carried by `getAverageRating`'s result (`"4.0"`
denotes `4`, the number `0` denotes `0`). -/
def averageRatingVal (p : Post) : ℚ :=
  match p.ratings with
  | none => 0
  | some rs =>
    if rs.length = 0 then 0
    else (toFixed1Int ((ratingsSum rs : ℚ) / rs.length) : ℚ) / 10

/-- `views` read as a number, absent field as 0. -/
def viewsOf (p : Post) : Int := p.views.getD 0

/-- One repository mutation, for invariants quantified over all
operations. -/
inductive RepoOp where
  | add (freshId : String) (now : Int) (title content : String)
  | update (id title content : String) (now : Int)
  | del (id : String)
  | rate (id : String) (r : Int)
  | incView (id : String)

def applyOp (st : RepoState) : RepoOp → RepoState
  | .add freshId now title content => (addPost st freshId now title content).1
  | .update id title content now => (updatePost st id title content now).1
  | .del id => (deletePost st id).1
  | .rate id r => (addRating st id r).1
  | .incView id => (incrementViews st id).1

/-- `incrementViews` applied `n` times to the same id. -/
def iterateIncrement (id : String) : Nat → RepoState → RepoState
  | 0, st => st
  | n + 1, st => iterateIncrement id n (incrementViews st id).1

/-! ## View-state controller (script.js lines 494–711)

Only the core state is modelled: the repository, the list/detail mode,
and the ids tracked by the detail view and the rating modal.  DOM
writes, scrolling and `alert`s change no core state. -/

inductive ViewMode where
  | list : ViewMode
  | detail : ViewMode
deriving Repr, DecidableEq

structure AppState where
  repo : RepoState
  currentView : ViewMode
  currentDetailPostId : Option String
  currentRatingPostId : Option String
deriving Repr, DecidableEq

/-- `showPostDetail(postId)`: the argument is nullable — the
rating-refresh call site passes the global `currentRatingPostId` after
`closeRatingModal()` has reset it to `null`.  `getPostById(null)` finds
no post, so the function returns at the "Post not found" alert before
ever calling `incrementViews`; only a call with a present id increments
the counter and enters detail mode. -/
def showPostDetail (s : AppState) (postId : Option String) : AppState :=
  match postId with
  | none => s
  | some pid =>
    match getPostById s.repo.posts pid with
    | none => s
    | some _ =>
      { s with
        repo := (incrementViews s.repo pid).1,
        currentView := .detail,
        currentDetailPostId := some pid }

/-- `openRatingModal(postId)`: record which post the rating modal
targets (the modal DOM itself is presentation). -/
def openRatingModal (s : AppState) (postId : String) : AppState :=
  match getPostById s.repo.posts postId with
  | none => s
  | some _ => { s with currentRatingPostId := some postId }

/-- `handleRatingClick` with a star of the given value: add the rating;
on success call `closeRatingModal()` (which resets the global
`currentRatingPostId` to `null`) and then refresh — in detail mode the
refresh is `showPostDetail(currentRatingPostId)`, re-reading the global
that was just cleared. -/
def handleRatingClick (s : AppState) (rating : Int) : AppState :=
  match s.currentRatingPostId with
  | none => s
  | some pid =>
    let res := addRating s.repo pid rating
    if res.2 then
      let s2 := { s with repo := res.1, currentRatingPostId := none }
      match s2.currentView with
      | .detail => showPostDetail s2 s2.currentRatingPostId
      | .list => s2
    else { s with repo := res.1 }

/-- `hidePostDetail()`. -/
def hidePostDetail (s : AppState) : AppState :=
  { s with currentView := .list, currentDetailPostId := none }

/-! ## Sample values -/

/-- A sample post as `addPost` creates it. -/
def samplePost : Post :=
  { id := "a", title := "Hello World", content := "This is a test post",
    timestamp := 0, ratings := some [5, 3], views := some 0 }

/-- A legacy post as an old persisted blob yields it: no `ratings`, no
`views` key. -/
def legacyPost : Post :=
  { id := "b", title := "Old", content := "Old content!", timestamp := 0,
    ratings := none, views := none }

def sampleState : RepoState :=
  { posts := [samplePost, legacyPost], store := none, saves := 0 }

/-- A serialized two-post collection, as a JSON value. -/
def sampleJson : Json :=
  .arr [.obj [("id".data, .str "a".data), ("title".data, .str "Hello World".data),
              ("content".data, .str "A \"quoted\" post".data),
              ("timestamp".data, .num 17), ("ratings".data, .arr [.num 5, .num 3]),
              ("views".data, .num 2)],
        .obj [("id".data, .str "b".data), ("title".data, .str "Old".data),
              ("content".data, .str "Old content!".data), ("timestamp".data, .num (-3))]]

/-- The app showing the list, sample posts loaded. -/
def sampleApp : AppState :=
  { repo := sampleState, currentView := .list,
    currentDetailPostId := none, currentRatingPostId := none }

/-- The app with the sample post's detail view open and its rating
modal active. -/
def sampleDetailApp : AppState :=
  { repo := sampleState, currentView := .detail,
    currentDetailPostId := some "a", currentRatingPostId := some "a" }

/-! ## Character-level lemmas -/

theorem ne_of_isDigit {c : Char} (h : c.isDigit = true) {d : Char}
    (hd : d.isDigit = false) : c ≠ d := by
  intro e
  subst e
  rw [h] at hd
  exact Bool.noConfusion hd

theorem isWsChar_false_of_isDigit {c : Char} (h : c.isDigit = true) :
    isWsChar c = false := by
  rcases Bool.eq_false_or_eq_true (isWsChar c) with hb | hb
  · exfalso
    simp only [isWsChar, Bool.or_eq_true, decide_eq_true_eq] at hb
    rcases hb with ((e | e) | e) | e <;> subst e <;> exact absurd h (by decide)
  · exact hb

theorem skipWs_cons_of_not_ws {c : Char} (h : isWsChar c = false) (cs : List Char) :
    skipWs (c :: cs) = c :: cs := by
  simp [skipWs, h]

theorem eatChars_append (es r : List Char) : eatChars es (es ++ r) = some r := by
  induction es with
  | nil => rfl
  | cons e es ih => simp [eatChars, ih]

theorem headNotDigit_cons {c : Char} (h : c.isDigit = false) (cs : List Char) :
    headNotDigit (c :: cs) = true := by
  simp [headNotDigit, h]

/-! ## Decimal digits -/

theorem isDigit_ofNat {n : Nat} (h : n < 10) : (Char.ofNat (48 + n)).isDigit = true := by
  interval_cases n <;> decide

theorem toNat_ofNat_digit {n : Nat} (h : n < 10) : (Char.ofNat (48 + n)).toNat = 48 + n := by
  interval_cases n <;> decide

theorem natDigitsAux_ne_nil (fuel n : Nat) : natDigitsAux (fuel + 1) n ≠ [] := by
  unfold natDigitsAux
  split
  · simp
  · simp

theorem natDigits_ne_nil (n : Nat) : natDigits n ≠ [] := natDigitsAux_ne_nil n n

theorem natDigitsAux_digits :
    ∀ fuel n, ∀ c ∈ natDigitsAux fuel n, c.isDigit = true := by
  intro fuel
  induction fuel with
  | zero => intro n c hc; simp [natDigitsAux] at hc
  | succ fuel ih =>
    intro n c hc
    unfold natDigitsAux at hc
    by_cases h10 : n < 10
    · simp only [if_pos h10, List.mem_singleton] at hc
      subst hc
      exact isDigit_ofNat h10
    · simp only [if_neg h10, List.mem_append, List.mem_singleton] at hc
      rcases hc with hc | hc
      · exact ih (n / 10) c hc
      · subst hc
        exact isDigit_ofNat (Nat.mod_lt _ (by norm_num))

theorem natDigits_digits (n : Nat) : ∀ c ∈ natDigits n, c.isDigit = true :=
  natDigitsAux_digits (n + 1) n

theorem parseDigits_stop (acc : Nat) {rest : List Char} (h : headNotDigit rest = true) :
    parseDigits acc rest = (acc, rest) := by
  cases rest with
  | nil => rfl
  | cons c cs =>
    simp only [headNotDigit, Bool.not_eq_true'] at h
    simp [parseDigits, h]

theorem parseDigits_natDigitsAux :
    ∀ fuel n acc rest, n < 10 ^ fuel →
      parseDigits acc (natDigitsAux fuel n ++ rest) =
        parseDigits (acc * 10 ^ (natDigitsAux fuel n).length + n) rest := by
  intro fuel
  induction fuel with
  | zero =>
    intro n acc rest h
    have hn : n = 0 := by simpa using h
    subst hn
    simp [natDigitsAux]
  | succ fuel ih =>
    intro n acc rest h
    by_cases h10 : n < 10
    · simp only [natDigitsAux, if_pos h10, List.cons_append, List.nil_append,
        List.length_singleton]
      simp only [parseDigits, isDigit_ofNat h10, if_pos, toNat_ofNat_digit h10]
      congr 1
      omega
    · simp only [natDigitsAux, if_neg h10, List.append_assoc, List.cons_append,
        List.nil_append]
      rw [ih (n / 10) acc _ (by
        have : (10 : Nat) ^ (fuel + 1) = 10 ^ fuel * 10 := pow_succ 10 fuel
        omega)]
      have hmod : n % 10 < 10 := Nat.mod_lt _ (by norm_num)
      simp only [parseDigits, isDigit_ofNat hmod, if_pos, toNat_ofNat_digit hmod]
      congr 1
      rw [List.length_append, List.length_singleton]
      have hdm : 10 * (n / 10) + n % 10 = n := Nat.div_add_mod n 10
      rw [pow_succ]
      rw [← hdm]
      ring_nf
      omega

theorem parseDigits_natDigits (n : Nat) {rest : List Char} (h : headNotDigit rest = true) :
    parseDigits 0 (natDigits n ++ rest) = (n, rest) := by
  have hlt : n < 10 ^ (n + 1) := by
    calc n < 10 ^ n := Nat.lt_pow_self (by norm_num) n
    _ ≤ 10 ^ (n + 1) := Nat.pow_le_pow_right (by norm_num) (by omega)
  rw [natDigits, parseDigits_natDigitsAux _ _ _ _ hlt]
  simpa using parseDigits_stop n h

/-! ## String escaping round-trip -/

theorem parseStrBody_quote (rest : List Char) :
    parseStrBody ('"' :: rest) = some ([], rest) := by
  rw [parseStrBody.eq_def]
  simp

theorem parseStrBody_esc_step {e d : Char} (hu : unescapeChar e = some d)
    {cs s r : List Char} (h : parseStrBody cs = some (s, r)) :
    parseStrBody ('\\' :: e :: cs) = some (d :: s, r) := by
  rw [parseStrBody.eq_def]
  simp [hu, h]

theorem parseStrBody_plain_step {c : Char} (h1 : c ≠ '"') (h2 : c ≠ '\\')
    (h3 : ¬c.toNat < 32) {cs s r : List Char} (h : parseStrBody cs = some (s, r)) :
    parseStrBody (c :: cs) = some (c :: s, r) := by
  rw [parseStrBody.eq_def]
  simp [h1, h2, h3, h]

theorem parseStrBody_escStr :
    ∀ s rest, s.all goodChar = true →
      parseStrBody (escStr s ++ '"' :: rest) = some (s, rest) := by
  intro s
  induction s with
  | nil =>
    intro rest _
    exact parseStrBody_quote rest
  | cons c cs ih =>
    intro rest h
    simp only [List.all_cons, Bool.and_eq_true] at h
    obtain ⟨hc, hcs⟩ := h
    have ihr := ih rest hcs
    simp only [escStr, List.append_assoc]
    by_cases h1 : c = '"'
    · subst h1
      simp only [escChar, if_pos rfl, List.cons_append, List.nil_append]
      exact parseStrBody_esc_step (by rw [unescapeChar]; simp) ihr
    · by_cases h2 : c = '\\'
      · subst h2
        rw [show escChar '\\' = ['\\', '\\'] by rw [escChar]; simp]
        exact parseStrBody_esc_step (by rw [unescapeChar]; simp) ihr
      · by_cases h3 : c = '\n'
        · subst h3
          rw [show escChar '\n' = ['\\', 'n'] by rw [escChar]; simp]
          exact parseStrBody_esc_step (by rw [unescapeChar]; simp) ihr
        · by_cases h4 : c = '\t'
          · subst h4
            rw [show escChar '\t' = ['\\', 't'] by rw [escChar]; simp]
            exact parseStrBody_esc_step (by rw [unescapeChar]; simp) ihr
          · by_cases h5 : c = '\r'
            · subst h5
              rw [show escChar '\r' = ['\\', 'r'] by rw [escChar]; simp]
              exact parseStrBody_esc_step (by rw [unescapeChar]; simp) ihr
            · by_cases h6 : c = Char.ofNat 8
              · subst h6
                rw [show escChar (Char.ofNat 8) = ['\\', 'b'] by rw [escChar]; simp]
                exact parseStrBody_esc_step (by rw [unescapeChar]; simp) ihr
              · by_cases h7 : c = Char.ofNat 12
                · subst h7
                  rw [show escChar (Char.ofNat 12) = ['\\', 'f'] by rw [escChar]; simp]
                  exact parseStrBody_esc_step (by rw [unescapeChar]; simp) ihr
                · have hge : ¬c.toNat < 32 := by
                    simp only [goodChar, Bool.or_eq_true, decide_eq_true_eq] at hc
                    rcases hc with ((((hc | hc) | hc) | hc) | hc) | hc
                    · omega
                    · exact absurd hc h3
                    · exact absurd hc h4
                    · exact absurd hc h5
                    · exact absurd hc h6
                    · exact absurd hc h7
                  rw [show escChar c = [c] by
                    rw [escChar]
                    simp [h1, h2, h3, h4, h5, h6, h7]]
                  exact parseStrBody_plain_step h1 h2 hge ihr

/-! ## Heads of serialized values -/

theorem stringify_head (j : Json) :
    ∃ c t, stringifyChars j = c :: t ∧ (isWsChar c = false ∧ c ≠ ']' ∧ c ≠ '}') := by
  cases j with
  | num n =>
    by_cases hn : n < 0
    · refine ⟨'-', natDigits (-n).toNat, ?_, by decide⟩
      show intDigits n = '-' :: natDigits (-n).toNat
      simp [intDigits, hn]
    · obtain ⟨c, t, hct⟩ := List.exists_cons_of_ne_nil (natDigits_ne_nil n.toNat)
      have hd : c.isDigit = true := natDigits_digits _ c (by rw [hct]; exact List.mem_cons_self c t)
      refine ⟨c, t, ?_, isWsChar_false_of_isDigit hd,
        ne_of_isDigit hd (by decide), ne_of_isDigit hd (by decide)⟩
      show intDigits n = c :: t
      simp [intDigits, hn, hct]
  | bool b => cases b <;> exact ⟨_, _, rfl, by decide⟩
  | null => exact ⟨_, _, rfl, by decide⟩
  | str s => exact ⟨_, _, rfl, by decide⟩
  | arr xs => exact ⟨_, _, rfl, by decide⟩
  | obj kvs => exact ⟨_, _, rfl, by decide⟩

theorem stringify_ne_nil (j : Json) : stringifyChars j ≠ [] := by
  obtain ⟨c, t, h, -, -, -⟩ := stringify_head j
  simp [h]

theorem stringifyElems_cons (x : Json) (xs : List Json) :
    ∃ s, stringifyElems (x :: xs) = stringifyChars x ++ s := by
  cases xs with
  | nil => exact ⟨[], by simp [stringifyElems]⟩
  | cons y ys => exact ⟨',' :: stringifyElems (y :: ys), rfl⟩

theorem length_le_stringifyElems :
    ∀ xs : List Json, xs.length ≤ (stringifyElems xs).length + 1 := by
  intro xs
  induction xs with
  | nil => simp [stringifyElems]
  | cons x xs ih =>
    cases xs with
    | nil => simp [stringifyElems]
    | cons y ys =>
      have hx := stringify_ne_nil x
      have hxlen : 1 ≤ (stringifyChars x).length := by
        cases hsx : stringifyChars x
        · exact absurd hsx hx
        · simp
      simp only [stringifyElems, List.length_cons, List.length_append] at ih ⊢
      omega

theorem length_le_stringifyMembers :
    ∀ kvs : List (List Char × Json), kvs.length ≤ (stringifyMembers kvs).length + 1 := by
  intro kvs
  induction kvs with
  | nil => simp [stringifyMembers]
  | cons kv kvs ih =>
    obtain ⟨k, v⟩ := kv
    cases kvs with
    | nil => simp [stringifyMembers]
    | cons m ms =>
      simp only [stringifyMembers, List.length_cons, List.length_append] at ih ⊢
      omega

/-! ## Membership facts for goodness and size -/

theorem sizeJ_pos (j : Json) : 1 ≤ sizeJ j := by
  cases j <;> simp [sizeJ]

theorem sizeJ_le_sizeElems {x : Json} :
    ∀ {xs : List Json}, x ∈ xs → sizeJ x ≤ sizeElems xs := by
  intro xs
  induction xs with
  | nil => intro h; cases h
  | cons y ys ih =>
    intro h
    rcases List.mem_cons.mp h with h | h
    · subst h
      simp only [sizeElems]
      omega
    · have := ih h
      have := sizeJ_pos y
      simp only [sizeElems]
      omega

theorem sizeJ_le_sizeMembers {v : Json} :
    ∀ {kvs : List (List Char × Json)} {k : List Char}, (k, v) ∈ kvs →
      sizeJ v ≤ sizeMembers kvs := by
  intro kvs
  induction kvs with
  | nil => intro k h; cases h
  | cons kv kvs ih =>
    intro k h
    obtain ⟨k0, v0⟩ := kv
    rcases List.mem_cons.mp h with h | h
    · rw [Prod.mk.injEq] at h
      obtain ⟨-, h2⟩ := h
      subst h2
      simp only [sizeMembers]
      omega
    · have := ih h
      have := sizeJ_pos v0
      simp only [sizeMembers]
      omega

theorem goodJ_of_mem_goodElems {x : Json} :
    ∀ {xs : List Json}, goodElems xs = true → x ∈ xs → goodJ x = true := by
  intro xs
  induction xs with
  | nil => intro _ h; cases h
  | cons y ys ih =>
    intro hg h
    simp only [goodElems, Bool.and_eq_true] at hg
    rcases List.mem_cons.mp h with h | h
    · subst h; exact hg.1
    · exact ih hg.2 h

theorem good_of_mem_goodMembers {k : List Char} {v : Json} :
    ∀ {kvs : List (List Char × Json)}, goodMembers kvs = true → (k, v) ∈ kvs →
      k.all goodChar = true ∧ goodJ v = true := by
  intro kvs
  induction kvs with
  | nil => intro _ h; cases h
  | cons kv kvs ih =>
    intro hg h
    obtain ⟨k0, v0⟩ := kv
    simp only [goodMembers, Bool.and_eq_true] at hg
    rcases List.mem_cons.mp h with h | h
    · rw [Prod.mk.injEq] at h
      obtain ⟨h1, h2⟩ := h
      subst h1
      subst h2
      exact ⟨hg.1.1, hg.1.2⟩
    · exact ih hg.2 h

/-! ## Element- and member-list round-trips -/

theorem parseElemsF_stringify
    (pv : List Char → Option (Json × List Char)) :
    ∀ xs : List Json,
      (∀ x ∈ xs, ∀ r, headNotDigit r = true → pv (stringifyChars x ++ r) = some (x, r)) →
      ∀ efuel rest, xs ≠ [] → xs.length ≤ efuel →
        parseElemsF pv efuel (stringifyElems xs ++ ']' :: rest) = some (xs, rest) := by
  intro xs
  induction xs with
  | nil =>
    intro _ efuel rest hne _
    exact absurd rfl hne
  | cons x xs ih =>
    intro hpv efuel rest _ hlen
    cases efuel with
    | zero => simp at hlen
    | succ efuel =>
      have hx := hpv x (List.mem_cons_self x xs)
      cases xs with
      | nil =>
        have hx1 := hx (']' :: rest) (headNotDigit_cons (by decide) _)
        rw [parseElemsF.eq_def]
        simp only [stringifyElems]
        rw [hx1]
        simp [skipWs_cons_of_not_ws (show isWsChar ']' = false by decide)]
      | cons y ys =>
        have hx1 := hx (',' :: (stringifyElems (y :: ys) ++ ']' :: rest))
          (headNotDigit_cons (by decide) _)
        have ihh := ih (fun z hz => hpv z (List.mem_cons_of_mem x hz)) efuel rest
          (by simp) (by simpa using Nat.le_of_succ_le_succ hlen)
        rw [parseElemsF.eq_def]
        simp only [stringifyElems, List.cons_append, List.append_assoc]
        rw [hx1]
        simp [skipWs_cons_of_not_ws (show isWsChar ',' = false by decide), ihh]

theorem parseMembersF_stringify
    (pv : List Char → Option (Json × List Char)) :
    ∀ kvs : List (List Char × Json),
      (∀ p ∈ kvs, (Prod.fst p).all goodChar = true) →
      (∀ p ∈ kvs, ∀ r, headNotDigit r = true →
        pv (stringifyChars (Prod.snd p) ++ r) = some (Prod.snd p, r)) →
      ∀ mfuel rest, kvs ≠ [] → kvs.length ≤ mfuel →
        parseMembersF pv mfuel (stringifyMembers kvs ++ '}' :: rest) = some (kvs, rest) := by
  intro kvs
  induction kvs with
  | nil =>
    intro _ _ mfuel rest hne _
    exact absurd rfl hne
  | cons kv kvs ih =>
    intro hkey hval mfuel rest _ hlen
    obtain ⟨k, v⟩ := kv
    cases mfuel with
    | zero => simp at hlen
    | succ mfuel =>
      have hk : k.all goodChar = true := hkey (k, v) (List.mem_cons_self _ _)
      have hv := hval (k, v) (List.mem_cons_self _ _)
      cases kvs with
      | nil =>
        have hv1 := hv ('}' :: rest) (headNotDigit_cons (by decide) _)
        have hkey1 := parseStrBody_escStr k (':' :: (stringifyChars v ++ '}' :: rest)) hk
        rw [parseMembersF.eq_def]
        simp only [stringifyMembers, List.cons_append, List.append_assoc]
        rw [skipWs_cons_of_not_ws (show isWsChar '"' = false by decide)]
        simp only [if_pos rfl]
        rw [hkey1]
        simp [skipWs_cons_of_not_ws (show isWsChar ':' = false by decide),
          skipWs_cons_of_not_ws (show isWsChar '}' = false by decide), hv1]
      | cons m ms =>
        have hv1 := hv (',' :: (stringifyMembers (m :: ms) ++ '}' :: rest))
          (headNotDigit_cons (by decide) _)
        have hkey1 := parseStrBody_escStr k
          (':' :: (stringifyChars v ++ ',' :: (stringifyMembers (m :: ms) ++ '}' :: rest))) hk
        have ihh := ih (fun p hp => hkey p (List.mem_cons_of_mem _ hp))
          (fun p hp => hval p (List.mem_cons_of_mem _ hp)) mfuel rest
          (by simp) (by simpa using Nat.le_of_succ_le_succ hlen)
        rw [parseMembersF.eq_def]
        simp only [stringifyMembers, List.cons_append, List.append_assoc]
        rw [skipWs_cons_of_not_ws (show isWsChar '"' = false by decide)]
        simp only [if_pos rfl]
        rw [hkey1]
        simp [skipWs_cons_of_not_ws (show isWsChar ':' = false by decide),
          skipWs_cons_of_not_ws (show isWsChar ',' = false by decide), hv1, ihh]

theorem stringifyMembers_cons (k : List Char) (v : Json)
    (kvs : List (List Char × Json)) :
    ∃ s, stringifyMembers ((k, v) :: kvs) = '"' :: s := by
  cases kvs with
  | nil => exact ⟨_, rfl⟩
  | cons m ms => exact ⟨_, rfl⟩

/-! ## The parser inverts the serializer -/

theorem parses_stringify :
    ∀ fuel j rest, goodJ j = true → sizeJ j ≤ fuel → headNotDigit rest = true →
      parseVal fuel (stringifyChars j ++ rest) = some (j, rest) := by
  intro fuel
  induction fuel with
  | zero =>
    intro j rest _ hs _
    have := sizeJ_pos j
    omega
  | succ fuel ih =>
    intro j rest hg hs hnd
    cases j with
    | null =>
      show parseValStep (parseVal fuel) ('n' :: ("ull".data ++ rest)) = some (.null, rest)
      rw [parseValStep]
      rw [skipWs_cons_of_not_ws (show isWsChar 'n' = false by decide)]
      simp [eatChars]
    | bool b =>
      cases b
      · show parseValStep (parseVal fuel) ('f' :: ("alse".data ++ rest))
            = some (.bool false, rest)
        rw [parseValStep]
        rw [skipWs_cons_of_not_ws (show isWsChar 'f' = false by decide)]
        simp [eatChars]
      · show parseValStep (parseVal fuel) ('t' :: ("rue".data ++ rest))
            = some (.bool true, rest)
        rw [parseValStep]
        rw [skipWs_cons_of_not_ws (show isWsChar 't' = false by decide)]
        simp [eatChars]
    | num n =>
      by_cases hn : n < 0
      · obtain ⟨c, t, hct⟩ := List.exists_cons_of_ne_nil (natDigits_ne_nil (-n).toNat)
        have hd : c.isDigit = true :=
          natDigits_digits _ c (by rw [hct]; exact List.mem_cons_self c t)
        have hparse : parseDigits 0 (c :: (t ++ rest)) = ((-n).toNat, rest) := by
          rw [show c :: (t ++ rest) = (c :: t) ++ rest by simp, ← hct]
          exact parseDigits_natDigits (-n).toNat hnd
        rw [show stringifyChars (.num n) ++ rest = '-' :: (natDigits (-n).toNat ++ rest) by
          show intDigits n ++ rest = _
          simp [intDigits, hn]]
        show parseValStep (parseVal fuel) ('-' :: (natDigits (-n).toNat ++ rest)) = _
        rw [parseValStep]
        rw [skipWs_cons_of_not_ws (show isWsChar '-' = false by decide)]
        rw [hct]
        simp only [List.cons_append]
        simp [hd, hparse, Int.toNat_of_nonneg (show (0 : Int) ≤ -n by omega)]
      · obtain ⟨c, t, hct⟩ := List.exists_cons_of_ne_nil (natDigits_ne_nil n.toNat)
        have hd : c.isDigit = true :=
          natDigits_digits _ c (by rw [hct]; exact List.mem_cons_self c t)
        have hparse : parseDigits 0 (c :: (t ++ rest)) = (n.toNat, rest) := by
          rw [show c :: (t ++ rest) = (c :: t) ++ rest by simp, ← hct]
          exact parseDigits_natDigits n.toNat hnd
        rw [show stringifyChars (.num n) ++ rest = c :: (t ++ rest) by
          show intDigits n ++ rest = _
          simp [intDigits, hn, hct]]
        show parseValStep (parseVal fuel) (c :: (t ++ rest)) = _
        rw [parseValStep]
        rw [skipWs_cons_of_not_ws (isWsChar_false_of_isDigit hd)]
        simp only [if_neg (ne_of_isDigit hd (show ('n').isDigit = false by decide)),
          if_neg (ne_of_isDigit hd (show ('t').isDigit = false by decide)),
          if_neg (ne_of_isDigit hd (show ('f').isDigit = false by decide)),
          if_neg (ne_of_isDigit hd (show ('"').isDigit = false by decide)),
          if_neg (ne_of_isDigit hd (show ('-').isDigit = false by decide)),
          if_neg (ne_of_isDigit hd (show ('[').isDigit = false by decide)),
          if_neg (ne_of_isDigit hd (show ('{').isDigit = false by decide)),
          if_pos hd]
        simp [hparse, Int.toNat_of_nonneg (show (0 : Int) ≤ n by omega)]
    | str s =>
      have hgs : s.all goodChar = true := hg
      have hbody := parseStrBody_escStr s rest hgs
      rw [show stringifyChars (.str s) ++ rest = '"' :: (escStr s ++ '"' :: rest) by
        show ('"' :: escStr s ++ ['"']) ++ rest = _
        simp]
      show parseValStep (parseVal fuel) ('"' :: (escStr s ++ '"' :: rest)) = _
      rw [parseValStep]
      rw [skipWs_cons_of_not_ws (show isWsChar '"' = false by decide)]
      simp [hbody]
    | arr xs =>
      cases xs with
      | nil =>
        rw [show stringifyChars (.arr []) ++ rest = '[' :: ']' :: rest by
          show ('[' :: stringifyElems [] ++ [']']) ++ rest = _
          simp [stringifyElems]]
        show parseValStep (parseVal fuel) ('[' :: ']' :: rest) = _
        rw [parseValStep]
        rw [skipWs_cons_of_not_ws (show isWsChar '[' = false by decide)]
        simp [skipWs_cons_of_not_ws (show isWsChar ']' = false by decide)]
      | cons x xs =>
        obtain ⟨s0, hs0⟩ := stringifyElems_cons x xs
        obtain ⟨c0, t0, he0, hw0, hne0, -⟩ := stringify_head x
        have hge : goodElems (x :: xs) = true := hg
        have hsz : sizeElems (x :: xs) ≤ fuel := by
          have h1 : sizeJ (.arr (x :: xs)) = 1 + sizeElems (x :: xs) := rfl
          omega
        have hpv : ∀ z ∈ x :: xs, ∀ r, headNotDigit r = true →
            parseVal fuel (stringifyChars z ++ r) = some (z, r) := by
          intro z hz r hr
          exact ih z r (goodJ_of_mem_goodElems hge hz)
            (le_trans (sizeJ_le_sizeElems hz) hsz) hr
        have hrest0 : stringifyElems (x :: xs) ++ ']' :: rest
            = c0 :: (t0 ++ (s0 ++ ']' :: rest)) := by
          rw [hs0, he0]
          simp
        rw [show stringifyChars (.arr (x :: xs)) ++ rest
            = '[' :: (stringifyElems (x :: xs) ++ ']' :: rest) by
          show ('[' :: stringifyElems (x :: xs) ++ [']']) ++ rest = _
          simp]
        show parseValStep (parseVal fuel)
          ('[' :: (stringifyElems (x :: xs) ++ ']' :: rest)) = _
        rw [parseValStep]
        rw [skipWs_cons_of_not_ws (show isWsChar '[' = false by decide)]
        rw [hrest0]
        simp only [skipWs_cons_of_not_ws hw0]
        simp [hne0]
        rw [← hrest0]
        rw [parseElemsF_stringify (parseVal fuel) (x :: xs) hpv _ rest (by simp) (by
          have h1 := length_le_stringifyElems (x :: xs)
          have h2 : (stringifyElems (x :: xs)).length = t0.length + 1 + s0.length := by
            rw [hs0, he0]
            simp [List.length_append, List.length_cons]
            omega
          simp only [List.length_cons] at h1 ⊢
          omega)]
    | obj kvs =>
      cases kvs with
      | nil =>
        rw [show stringifyChars (.obj []) ++ rest = '{' :: '}' :: rest by
          show ('{' :: stringifyMembers [] ++ ['}']) ++ rest = _
          simp [stringifyMembers]]
        show parseValStep (parseVal fuel) ('{' :: '}' :: rest) = _
        rw [parseValStep]
        rw [skipWs_cons_of_not_ws (show isWsChar '{' = false by decide)]
        simp [skipWs_cons_of_not_ws (show isWsChar '}' = false by decide)]
      | cons kv kvs =>
        obtain ⟨k, v⟩ := kv
        obtain ⟨s0, hs0⟩ := stringifyMembers_cons k v kvs
        have hgm : goodMembers ((k, v) :: kvs) = true := hg
        have hsz : sizeMembers ((k, v) :: kvs) ≤ fuel := by
          have h1 : sizeJ (.obj ((k, v) :: kvs)) = 1 + sizeMembers ((k, v) :: kvs) := rfl
          omega
        have hkey : ∀ p ∈ (k, v) :: kvs, (Prod.fst p).all goodChar = true := by
          intro p hp
          obtain ⟨k0, v0⟩ := p
          exact (good_of_mem_goodMembers hgm hp).1
        have hval : ∀ p ∈ (k, v) :: kvs, ∀ r, headNotDigit r = true →
            parseVal fuel (stringifyChars (Prod.snd p) ++ r) = some (Prod.snd p, r) := by
          intro p hp r hr
          obtain ⟨k0, v0⟩ := p
          exact ih v0 r (good_of_mem_goodMembers hgm hp).2
            (le_trans (sizeJ_le_sizeMembers hp) hsz) hr
        have hrest0 : stringifyMembers ((k, v) :: kvs) ++ '}' :: rest
            = '"' :: (s0 ++ '}' :: rest) := by
          rw [hs0]
          simp
        rw [show stringifyChars (.obj ((k, v) :: kvs)) ++ rest
            = '{' :: (stringifyMembers ((k, v) :: kvs) ++ '}' :: rest) by
          show ('{' :: stringifyMembers ((k, v) :: kvs) ++ ['}']) ++ rest = _
          simp]
        show parseValStep (parseVal fuel)
          ('{' :: (stringifyMembers ((k, v) :: kvs) ++ '}' :: rest)) = _
        rw [parseValStep]
        rw [skipWs_cons_of_not_ws (show isWsChar '{' = false by decide)]
        rw [hrest0]
        simp [skipWs_cons_of_not_ws (show isWsChar '"' = false by decide)]
        rw [← hrest0]
        rw [parseMembersF_stringify (parseVal fuel) ((k, v) :: kvs) hkey hval _ rest
          (by simp) (by
            have h1 := length_le_stringifyMembers ((k, v) :: kvs)
            have h2 : (stringifyMembers ((k, v) :: kvs)).length = s0.length + 1 := by
              rw [hs0]
              simp
            simp only [List.length_cons] at h1 ⊢
            omega)]

mutual

theorem sizeJ_le_length : (j : Json) → sizeJ j ≤ (stringifyChars j).length
  | .null => by simp [sizeJ, stringifyChars]
  | .bool b => by cases b <;> simp [sizeJ, stringifyChars]
  | .num n => by
    have h1 : intDigits n ≠ [] := by
      rw [intDigits]
      split
      · simp
      · exact natDigits_ne_nil _
    have h2 : 1 ≤ (intDigits n).length := by
      cases hi : intDigits n
      · exact absurd hi h1
      · simp
    show sizeJ (.num n) ≤ (intDigits n).length
    simpa [sizeJ] using h2
  | .str s => by
    show sizeJ (.str s) ≤ ('"' :: escStr s ++ ['"']).length
    simp [sizeJ]
  | .arr xs => by
    have h := sizeElems_le_length xs
    show 1 + sizeElems xs ≤ ('[' :: stringifyElems xs ++ [']']).length
    simp only [List.cons_append, List.length_cons, List.length_append,
      List.length_singleton]
    omega
  | .obj kvs => by
    have h := sizeMembers_le_length kvs
    show 1 + sizeMembers kvs ≤ ('{' :: stringifyMembers kvs ++ ['}']).length
    simp only [List.cons_append, List.length_cons, List.length_append,
      List.length_singleton]
    omega

theorem sizeElems_le_length : (xs : List Json) → sizeElems xs ≤ (stringifyElems xs).length + 1
  | [] => by simp [sizeElems, stringifyElems]
  | [x] => by
    have h := sizeJ_le_length x
    show sizeJ x + sizeElems [] ≤ (stringifyChars x).length + 1
    simp only [sizeElems]
    omega
  | x :: y :: ys => by
    have h1 := sizeJ_le_length x
    have h2 := sizeElems_le_length (y :: ys)
    show sizeJ x + sizeElems (y :: ys)
        ≤ (stringifyChars x ++ ',' :: stringifyElems (y :: ys)).length + 1
    simp only [List.length_append, List.length_cons] at h2 ⊢
    omega

theorem sizeMembers_le_length :
    (kvs : List (List Char × Json)) → sizeMembers kvs ≤ (stringifyMembers kvs).length + 1
  | [] => by simp [sizeMembers, stringifyMembers]
  | [(k, v)] => by
    have h := sizeJ_le_length v
    show sizeJ v + sizeMembers [] ≤ ('"' :: escStr k ++ '"' :: ':' :: stringifyChars v).length + 1
    simp only [sizeMembers, List.cons_append, List.length_cons, List.length_append]
    omega
  | (k, v) :: m :: ms => by
    have h1 := sizeJ_le_length v
    have h2 := sizeMembers_le_length (m :: ms)
    show sizeJ v + sizeMembers (m :: ms)
        ≤ (('"' :: escStr k ++ '"' :: ':' :: stringifyChars v)
            ++ ',' :: stringifyMembers (m :: ms)).length + 1
    simp only [List.length_append, List.length_cons] at h2 ⊢
    omega

end

/-- The parser inverts the serializer: `JSON.parse(JSON.stringify(v))`
recovers `v` exactly, for every value whose strings use the modelled
escape repertoire. -/
theorem parseJson_stringifyJson (j : Json) (h : goodJ j = true) :
    parseJson (stringifyJson j) = some j := by
  have hp := parses_stringify ((stringifyChars j).length + 1) j [] h
    (by have := sizeJ_le_length j; omega) rfl
  rw [parseJson]
  have hdata : (stringifyJson j).data = stringifyChars j := rfl
  have hlen : (stringifyJson j).length = (stringifyChars j).length := rfl
  rw [hdata, hlen]
  rw [List.append_nil] at hp
  rw [hp]
  rfl

/-! ## Repository lemmas -/

theorem hasId_false {ps : List Post} {id : String} (h : ∀ p ∈ ps, p.id ≠ id) :
    hasId ps id = false := by
  simp only [hasId, List.any_eq_false, decide_eq_true_eq]
  exact h

theorem getPostById_mem {ps : List Post} {id : String} {p : Post}
    (h : getPostById ps id = some p) : p ∈ ps ∧ p.id = id := by
  refine ⟨List.mem_of_find?_eq_some h, ?_⟩
  have := List.find?_some h
  simpa using this

theorem hasId_true_of_getPostById {ps : List Post} {id : String} {p : Post}
    (h : getPostById ps id = some p) : hasId ps id = true := by
  obtain ⟨hm, hid⟩ := getPostById_mem h
  simp only [hasId, List.any_eq_true, decide_eq_true_eq]
  exact ⟨p, hm, hid⟩

theorem getPostById_updateFirst (ps : List Post) (id : String) (f : Post → Post)
    (hf : ∀ p, (f p).id = p.id) :
    getPostById (updateFirst ps id f) id = (getPostById ps id).map f := by
  induction ps with
  | nil => rfl
  | cons p rest ih =>
    by_cases h : p.id = id
    · rw [updateFirst, if_pos h]
      rw [getPostById, List.find?_cons_of_pos _ (by simp [hf, h]),
        getPostById, List.find?_cons_of_pos _ (by simp [h])]
      rfl
    · rw [updateFirst, if_neg h]
      rw [getPostById, List.find?_cons_of_neg _ (by simp [h]),
        getPostById, List.find?_cons_of_neg _ (by simp [h])]
      exact ih

theorem mem_updateFirst {id : String} {f : Post → Post} {q : Post} :
    ∀ {ps : List Post}, q ∈ updateFirst ps id f →
      q ∈ ps ∨ ∃ p ∈ ps, p.id = id ∧ q = f p := by
  intro ps
  induction ps with
  | nil => intro h; cases h
  | cons p rest ih =>
    intro h
    by_cases hp : p.id = id
    · rw [updateFirst, if_pos hp] at h
      rcases List.mem_cons.mp h with h | h
      · exact Or.inr ⟨p, List.mem_cons_self _ _, hp, h⟩
      · exact Or.inl (List.mem_cons_of_mem _ h)
    · rw [updateFirst, if_neg hp] at h
      rcases List.mem_cons.mp h with h | h
      · exact Or.inl (h ▸ List.mem_cons_self _ _)
      · rcases ih h with h | ⟨p0, hp0, hid0, hq0⟩
        · exact Or.inl (List.mem_cons_of_mem _ h)
        · exact Or.inr ⟨p0, List.mem_cons_of_mem _ hp0, hid0, hq0⟩

theorem length_removeFirst {id : String} :
    ∀ {ps : List Post}, hasId ps id = true →
      (removeFirst ps id).length + 1 = ps.length := by
  intro ps
  induction ps with
  | nil => intro h; simp [hasId] at h
  | cons p rest ih =>
    intro h
    by_cases hp : p.id = id
    · rw [removeFirst, if_pos hp]
      simp
    · rw [removeFirst, if_neg hp]
      have hr : hasId rest id = true := by
        simp only [hasId, List.any_cons, Bool.or_eq_true, decide_eq_true_eq] at h
        rcases h with h | h
        · exact absurd h hp
        · simpa [hasId] using h
      simp only [List.length_cons]
      rw [← ih hr]

theorem mem_removeFirst {id : String} {q : Post} :
    ∀ {ps : List Post}, q ∈ removeFirst ps id → q ∈ ps := by
  intro ps
  induction ps with
  | nil => intro h; cases h
  | cons p rest ih =>
    intro h
    by_cases hp : p.id = id
    · rw [removeFirst, if_pos hp] at h
      exact List.mem_cons_of_mem _ h
    · rw [removeFirst, if_neg hp] at h
      rcases List.mem_cons.mp h with h | h
      · exact h ▸ List.mem_cons_self _ _
      · exact List.mem_cons_of_mem _ (ih h)

theorem mem_removeFirst_of_ne {id : String} {q : Post} (hq : q.id ≠ id) :
    ∀ {ps : List Post}, q ∈ ps → q ∈ removeFirst ps id := by
  intro ps
  induction ps with
  | nil => intro h; cases h
  | cons p rest ih =>
    intro h
    by_cases hp : p.id = id
    · rw [removeFirst, if_pos hp]
      rcases List.mem_cons.mp h with h | h
      · exact absurd (h ▸ hp) hq
      · exact h
    · rw [removeFirst, if_neg hp]
      rcases List.mem_cons.mp h with h | h
      · exact h ▸ List.mem_cons_self _ _
      · exact List.mem_cons_of_mem _ (ih h)

theorem getPostById_removeFirst_of_nodup {id : String} :
    ∀ {ps : List Post}, (ps.map Post.id).Nodup →
      getPostById (removeFirst ps id) id = none := by
  intro ps
  induction ps with
  | nil => intro _; rfl
  | cons p rest ih =>
    intro hnd
    simp only [List.map_cons, List.nodup_cons] at hnd
    obtain ⟨hnotin, hnd⟩ := hnd
    by_cases hp : p.id = id
    · rw [removeFirst, if_pos hp]
      rw [getPostById, List.find?_eq_none]
      intro q hq
      simp only [decide_eq_true_eq]
      intro hqid
      refine hnotin ?_
      rw [hp, ← hqid]
      exact List.mem_map_of_mem Post.id hq
    · rw [removeFirst, if_neg hp]
      rw [getPostById, List.find?_cons_of_neg _ (by simp [hp])]
      exact ih hnd

/-! ## View-counter lemmas -/

theorem incrementViews_posts_head (st : RepoState) (freshId : String) (p0 : Post)
    (rest : List Post) (v : Int) (hid : p0.id = freshId) (hv : p0.views = some v)
    (hst : st.posts = p0 :: rest) :
    (incrementViews st freshId).1.posts = { p0 with views := some (v + 1) } :: rest := by
  have hhas : hasId st.posts freshId = true := by
    rw [hst]
    simp [hasId, hid]
  rw [incrementViews, if_pos hhas]
  show updateFirst st.posts freshId _ = _
  rw [hst, updateFirst, if_pos hid]
  simp [hv]

theorem iterateIncrement_posts (freshId : String) :
    ∀ (N : Nat) (p0 : Post) (v : Int) (rest : List Post) (st : RepoState),
      p0.id = freshId → p0.views = some v → st.posts = p0 :: rest →
      (iterateIncrement freshId N st).posts
        = { p0 with views := some (v + N) } :: rest := by
  intro N
  induction N with
  | zero =>
    intro p0 v rest st hid hv hst
    rw [iterateIncrement, hst]
    cases p0
    simp at hv
    simp [hv]
  | succ n ihn =>
    intro p0 v rest st hid hv hst
    rw [iterateIncrement]
    have hstep := incrementViews_posts_head st freshId p0 rest v hid hv hst
    have := ihn { p0 with views := some (v + 1) } (v + 1) rest _ hid rfl hstep
    rw [this]
    have harith : v + 1 + (n : Int) = v + ((n + 1 : Nat) : Int) := by
      push_cast
      ring
    rw [harith]

theorem views_never_decrease (st : RepoState) (op : RepoOp) (q : Post)
    (hq : q ∈ (applyOp st op).posts) :
    q.views = some 0 ∨ ∃ p ∈ st.posts, p.id = q.id ∧ viewsOf p ≤ viewsOf q := by
  cases op with
  | add freshId now title content =>
    have hq' : q ∈ (addPost st freshId now title content).2 :: st.posts := hq
    rcases List.mem_cons.mp hq' with h | h
    · left
      rw [h]
      rfl
    · exact Or.inr ⟨q, h, rfl, le_refl _⟩
  | update id title content now =>
    by_cases hh : hasId st.posts id = true
    · have hq' : q ∈ updateFirst st.posts id (fun p =>
          { p with title := jsTrim title, content := jsTrim content, timestamp := now }) := by
        rw [applyOp, updatePost, if_pos hh] at hq
        exact hq
      rcases mem_updateFirst hq' with h | ⟨p, hp, -, hqp⟩
      · exact Or.inr ⟨q, h, rfl, le_refl _⟩
      · subst hqp
        exact Or.inr ⟨p, hp, rfl, le_refl _⟩
    · rw [applyOp, updatePost, if_neg hh] at hq
      exact Or.inr ⟨q, hq, rfl, le_refl _⟩
  | del id =>
    by_cases hh : hasId st.posts id = true
    · have hq' : q ∈ removeFirst st.posts id := by
        rw [applyOp, deletePost, if_pos hh] at hq
        exact hq
      exact Or.inr ⟨q, mem_removeFirst hq', rfl, le_refl _⟩
    · rw [applyOp, deletePost, if_neg hh] at hq
      exact Or.inr ⟨q, hq, rfl, le_refl _⟩
  | rate id r =>
    by_cases hh : hasId st.posts id = true
    · have hq' : q ∈ updateFirst st.posts id (fun p =>
          { p with ratings := some (p.ratings.getD [] ++ [r]) }) := by
        rw [applyOp, addRating, if_pos hh] at hq
        exact hq
      rcases mem_updateFirst hq' with h | ⟨p, hp, -, hqp⟩
      · exact Or.inr ⟨q, h, rfl, le_refl _⟩
      · subst hqp
        exact Or.inr ⟨p, hp, rfl, le_refl _⟩
    · rw [applyOp, addRating, if_neg hh] at hq
      exact Or.inr ⟨q, hq, rfl, le_refl _⟩
  | incView id =>
    by_cases hh : hasId st.posts id = true
    · have hq' : q ∈ updateFirst st.posts id (fun p =>
          { p with views := some (p.views.getD 0 + 1) }) := by
        rw [applyOp, incrementViews, if_pos hh] at hq
        exact hq
      rcases mem_updateFirst hq' with h | ⟨p, hp, -, hqp⟩
      · exact Or.inr ⟨q, h, rfl, le_refl _⟩
      · subst hqp
        refine Or.inr ⟨p, hp, rfl, ?_⟩
        show p.views.getD 0 ≤ ({ p with views := some (p.views.getD 0 + 1) } : Post).views.getD 0
        simp
    · rw [applyOp, incrementViews, if_neg hh] at hq
      exact Or.inr ⟨q, hq, rfl, le_refl _⟩

/-! ## Claim theorems -/

/-- C2: `averageRating` is the arithmetic mean of the ratings rounded to
one decimal place (`specAverageRating`, stated from the spec's words)
and 0 on an empty list, and every successful `addRating` call increases
`ratingCount` by exactly 1. -/
theorem averageRating_mean_and_ratingCount :
    (∀ p : Post, (p.ratings = none ∨ p.ratings = some []) → getAverageRating p = JsVal.num 0) ∧
    (∀ (p : Post) (rs : List Int), p.ratings = some rs → rs ≠ [] →
      getAverageRating p = JsVal.str (jsToFixed1 ((rs.sum : ℚ) / rs.length)) ∧
      (toFixed1Int ((rs.sum : ℚ) / rs.length) : ℚ) / 10 = specAverageRating rs) ∧
    (∀ (st : RepoState) (id : String) (r : Int) (p : Post),
      getPostById st.posts id = some p → r ∈ ([1, 2, 3, 4, 5] : List Int) →
      (addRating st id r).2 = true ∧
      ∃ p', getPostById (addRating st id r).1.posts id = some p' ∧
        getRatingCount p' = getRatingCount p + 1) := by
  refine ⟨?_, ?_, ?_⟩
  · intro p h
    rcases h with h | h <;> simp [getAverageRating, h]
  · intro p rs hp hne
    have hlen : rs.length ≠ 0 := fun h0 => hne (List.length_eq_zero.mp h0)
    constructor
    · simp [getAverageRating, hp, hlen, ratingsSum]
    · rw [specAverageRating, if_neg hne, toFixed1Int, round_eq]
  · intro st id r p hp _
    have ht := hasId_true_of_getPostById hp
    have hsucc : (addRating st id r).2 = true := by
      rw [addRating, if_pos ht]
    have hposts : (addRating st id r).1.posts
        = updateFirst st.posts id (fun p =>
            { p with ratings := some (p.ratings.getD [] ++ [r]) }) := by
      rw [addRating, if_pos ht]
      rfl
    refine ⟨hsucc, { p with ratings := some (p.ratings.getD [] ++ [r]) }, ?_, ?_⟩
    · rw [hposts, getPostById_updateFirst st.posts id
        (fun q => { q with ratings := some (q.ratings.getD [] ++ [r]) }) (fun q => rfl), hp]
      rfl
    · show (p.ratings.getD [] ++ [r]).length = getRatingCount p + 1
      cases hr : p.ratings <;> simp [getRatingCount, hr]

/-- C3: for valid non-empty trimmed inputs, `addPost` trims both
fields, initializes empty ratings and zero views, inserts the new post
at the head, and `getPostById` on the fresh id returns exactly it. -/
theorem create_findById_roundtrip
    (st : RepoState) (freshId : String) (now : Int) (title content : String)
    (ht : jsTrim title ≠ "") (hc : jsTrim content ≠ "") :
    (addPost st freshId now title content).2.title = jsTrim title ∧
    (addPost st freshId now title content).2.content = jsTrim content ∧
    (addPost st freshId now title content).2.ratings = some [] ∧
    (addPost st freshId now title content).2.views = some 0 ∧
    (addPost st freshId now title content).2.id = freshId ∧
    (addPost st freshId now title content).1.posts
      = (addPost st freshId now title content).2 :: st.posts ∧
    getPostById (addPost st freshId now title content).1.posts
        (addPost st freshId now title content).2.id
      = some (addPost st freshId now title content).2 := by
  refine ⟨rfl, rfl, rfl, rfl, rfl, rfl, ?_⟩
  show getPostById ((addPost st freshId now title content).2 :: st.posts) _ = _
  rw [getPostById, List.find?_cons_of_pos _ (by simp)]

/-- C4: every mutation aimed at an id that no post has returns the
boolean failure result and the completely unchanged state — same
posts, same store, no `savePosts` call. -/
theorem missing_id_mutations_noop
    (st : RepoState) (id title content : String) (now : Int) (r : Int)
    (h : ∀ p ∈ st.posts, p.id ≠ id) :
    updatePost st id title content now = (st, false) ∧
    deletePost st id = (st, false) ∧
    addRating st id r = (st, false) ∧
    incrementViews st id = (st, false) := by
  have hf : hasId st.posts id = false := hasId_false h
  refine ⟨?_, ?_, ?_, ?_⟩
  · rw [updatePost, if_neg (by simp [hf])]
  · rw [deletePost, if_neg (by simp [hf])]
  · rw [addRating, if_neg (by simp [hf])]
  · rw [incrementViews, if_neg (by simp [hf])]

/-- C5: deleting a present id succeeds, afterwards `getPostById` on it
is `none`, the collection shrinks by exactly one, and every other post
survives. -/
theorem delete_removes_exactly_target
    (st : RepoState) (id : String) (p : Post)
    (hnd : (st.posts.map Post.id).Nodup)
    (hp : getPostById st.posts id = some p) :
    (deletePost st id).2 = true ∧
    getPostById (deletePost st id).1.posts id = none ∧
    (deletePost st id).1.posts.length + 1 = st.posts.length ∧
    (∀ q ∈ st.posts, q.id ≠ id → q ∈ (deletePost st id).1.posts) ∧
    (∀ q ∈ (deletePost st id).1.posts, q ∈ st.posts) := by
  have ht := hasId_true_of_getPostById hp
  have hsucc : (deletePost st id).2 = true := by
    rw [deletePost, if_pos ht]
  have hposts : (deletePost st id).1.posts = removeFirst st.posts id := by
    rw [deletePost, if_pos ht]
    rfl
  refine ⟨hsucc, ?_, ?_, ?_, ?_⟩
  · rw [hposts]
    exact getPostById_removeFirst_of_nodup hnd
  · rw [hposts]
    exact length_removeFirst ht
  · intro q hqm hqne
    rw [hposts]
    exact mem_removeFirst_of_ne hqne hqm
  · intro q hq
    rw [hposts] at hq
    exact mem_removeFirst hq

/-- C6: starting from a freshly created post, N `incrementViews` calls
yield `views = N`; and no repository operation decreases any post's
view counter (every post after an operation is either brand new with
zero views or descends from a post with the same id and no larger
counter). -/
theorem views_count_and_monotonicity :
    (∀ (st : RepoState) (freshId : String) (now : Int) (title content : String) (N : Nat),
      (∀ p ∈ st.posts, p.id ≠ freshId) →
      ∃ q, getPostById (iterateIncrement freshId N
              (addPost st freshId now title content).1).posts freshId = some q ∧
           q.views = some (N : Int)) ∧
    (∀ (st : RepoState) (op : RepoOp) (q : Post), q ∈ (applyOp st op).posts →
      q.views = some 0 ∨ ∃ p ∈ st.posts, p.id = q.id ∧ viewsOf p ≤ viewsOf q) := by
  constructor
  · intro st freshId now title content N _
    have hip := iterateIncrement_posts freshId N
      (addPost st freshId now title content).2 0 st.posts
      (addPost st freshId now title content).1 rfl rfl rfl
    refine ⟨{ (addPost st freshId now title content).2 with views := some (0 + (N : Int)) },
      ?_, ?_⟩
    · rw [hip, getPostById, List.find?_cons_of_pos _ (by exact decide_eq_true rfl)]
    · show some (0 + (N : Int)) = some (N : Int)
      rw [zero_add]
  · exact views_never_decrease

/-- C7: `loadPosts` returns the empty collection when the storage key
is absent and when the stored value fails to parse; being a total
function of the store it never aborts. -/
theorem load_degrades_to_empty :
    loadStore none = Json.arr [] ∧
    ∀ s : String, parseJson s = none → loadStore (some s) = Json.arr [] := by
  refine ⟨rfl, ?_⟩
  intro s h
  rw [loadStore, h]

/-- C8: `save(load())` is byte-identical on every blob `save` persists:
loading a saved collection recovers it exactly and re-saving writes the
very same string, with no field reordering or loss. -/
theorem save_load_byte_identical (j : Json) (h : goodJ j = true) :
    loadStore (saveStore j) = j ∧
    saveStore (loadStore (saveStore j)) = saveStore j := by
  have hp := parseJson_stringifyJson j h
  have h1 : loadStore (saveStore j) = j := by
    rw [saveStore, loadStore, hp]
  exact ⟨h1, by rw [h1]⟩

/-- C9: operations on a stored post lacking the `ratings` or `views`
field treat the absent field as empty/zero and never fail: `addRating`
starts from the empty list, `incrementViews` starts from zero, and the
metric helpers return 0. -/
theorem legacy_fields_default
    (st : RepoState) (id : String) (r : Int) (p : Post)
    (hp : getPostById st.posts id = some p)
    (hr : p.ratings = none) (hv : p.views = none) :
    (addRating st id r).2 = true ∧
    (∃ p', getPostById (addRating st id r).1.posts id = some p' ∧
      p'.ratings = some [r]) ∧
    (incrementViews st id).2 = true ∧
    (∃ p', getPostById (incrementViews st id).1.posts id = some p' ∧
      p'.views = some 1) ∧
    getAverageRating p = JsVal.num 0 ∧
    getRatingCount p = 0 := by
  have ht := hasId_true_of_getPostById hp
  refine And.intro ?_ (And.intro ?_ (And.intro ?_ (And.intro ?_ (And.intro ?_ ?_))))
  · rw [addRating, if_pos ht]
  · refine ⟨{ p with ratings := some (p.ratings.getD [] ++ [r]) }, ?_, ?_⟩
    · have hposts : (addRating st id r).1.posts
          = updateFirst st.posts id (fun q =>
              { q with ratings := some (q.ratings.getD [] ++ [r]) }) := by
        rw [addRating, if_pos ht]
        rfl
      rw [hposts, getPostById_updateFirst st.posts id
        (fun q => { q with ratings := some (q.ratings.getD [] ++ [r]) }) (fun q => rfl), hp]
      rfl
    · simp [hr]
  · rw [incrementViews, if_pos ht]
  · refine ⟨{ p with views := some (p.views.getD 0 + 1) }, ?_, ?_⟩
    · have hposts : (incrementViews st id).1.posts
          = updateFirst st.posts id (fun q =>
              { q with views := some (q.views.getD 0 + 1) }) := by
        rw [incrementViews, if_pos ht]
        rfl
      rw [hposts, getPostById_updateFirst st.posts id
        (fun q => { q with views := some (q.views.getD 0 + 1) }) (fun q => rfl), hp]
      rfl
    · simp [hv]
  · simp [getAverageRating, hr]
  · simp [getRatingCount, hr]

/-- C10: the public return type of `getAverageRating` differs by case:
the number 0 for an empty or absent ratings list, and for a non-empty
list the `toFixed(1)` string — one integer part, a dot, one digit. -/
theorem averageRating_return_type_split (p : Post) :
    ((p.ratings = none ∨ p.ratings = some []) → getAverageRating p = JsVal.num 0) ∧
    (∀ rs : List Int, p.ratings = some rs → rs ≠ [] →
      ∃ k : Int, getAverageRating p
        = JsVal.str (toString (k / 10) ++ "." ++ toString (k % 10))) := by
  constructor
  · intro h
    rcases h with h | h <;> simp [getAverageRating, h]
  · intro rs hp hne
    have hlen : rs.length ≠ 0 := fun h0 => hne (List.length_eq_zero.mp h0)
    refine ⟨toFixed1Int ((rs.sum : ℚ) / rs.length), ?_⟩
    simp [getAverageRating, hp, hlen, ratingsSum, jsToFixed1]

/-- C1: a List → Detail transition (`showPostDetail` on a present id)
calls `incrementViews` exactly once, raising that post's counter by
exactly 1 and entering detail mode; and the re-render of an
already-open detail view performed after a rating submission does not
call `incrementViews` again — `closeRatingModal()` has cleared the
global, so the refresh is `showPostDetail(null)`, which returns at the
not-found check, and every post keeps its view counter. -/
theorem detail_transition_increments_once :
    (∀ (s : AppState) (pid : String) (p : Post),
      getPostById s.repo.posts pid = some p →
      (showPostDetail s (some pid)).currentView = ViewMode.detail ∧
      ∃ q, getPostById (showPostDetail s (some pid)).repo.posts pid = some q ∧
        q.views = some (viewsOf p + 1)) ∧
    (∀ (s : AppState) (rating : Int), s.currentView = ViewMode.detail →
      ∀ q ∈ (handleRatingClick s rating).repo.posts,
        ∃ p ∈ s.repo.posts, p.id = q.id ∧ q.views = p.views) := by
  constructor
  · intro s pid p hp
    have ht := hasId_true_of_getPostById hp
    have hrw : showPostDetail s (some pid)
        = { s with repo := (incrementViews s.repo pid).1,
                   currentView := ViewMode.detail,
                   currentDetailPostId := some pid } := by
      simp only [showPostDetail]
      rw [hp]
    have hposts : (incrementViews s.repo pid).1.posts
        = updateFirst s.repo.posts pid (fun q =>
            { q with views := some (q.views.getD 0 + 1) }) := by
      rw [incrementViews, if_pos ht]
      rfl
    refine ⟨by rw [hrw], { p with views := some (p.views.getD 0 + 1) }, ?_, rfl⟩
    rw [hrw]
    show getPostById (incrementViews s.repo pid).1.posts pid = _
    rw [hposts, getPostById_updateFirst s.repo.posts pid
      (fun q => { q with views := some (q.views.getD 0 + 1) }) (fun q => rfl), hp]
    rfl
  · intro s rating hview q hq
    cases hrp : s.currentRatingPostId with
    | none =>
      have hr : handleRatingClick s rating = s := by
        rw [handleRatingClick, hrp]
      rw [hr] at hq
      exact ⟨q, hq, rfl, rfl⟩
    | some pid =>
      by_cases hsucc : (addRating s.repo pid rating).2 = true
      · have hr : handleRatingClick s rating
            = { s with repo := (addRating s.repo pid rating).1,
                       currentRatingPostId := none } := by
          rw [handleRatingClick, hrp]
          simp [hsucc, hview, showPostDetail]
        have hid : hasId s.repo.posts pid = true := by
          by_cases h : hasId s.repo.posts pid = true
          · exact h
          · exfalso
            rw [addRating, if_neg h] at hsucc
            simp at hsucc
        have hposts : (addRating s.repo pid rating).1.posts
            = updateFirst s.repo.posts pid (fun q =>
                { q with ratings := some (q.ratings.getD [] ++ [rating]) }) := by
          rw [addRating, if_pos hid]
          rfl
        rw [hr] at hq
        have hq2 : q ∈ updateFirst s.repo.posts pid (fun q =>
            { q with ratings := some (q.ratings.getD [] ++ [rating]) }) := by
          rw [← hposts]
          exact hq
        rcases mem_updateFirst hq2 with h | ⟨p, hpmem, -, hqf⟩
        · exact ⟨q, h, rfl, rfl⟩
        · subst hqf
          exact ⟨p, hpmem, rfl, rfl⟩
      · have hfail : addRating s.repo pid rating = (s.repo, false) := by
          by_cases h : hasId s.repo.posts pid = true
          · exfalso
            apply hsucc
            rw [addRating, if_pos h]
          · rw [addRating, if_neg h]
        have hr : handleRatingClick s rating
            = { s with repo := (addRating s.repo pid rating).1 } := by
          rw [handleRatingClick, hrp]
          simp [hsucc]
        rw [hfail] at hr
        rw [hr] at hq
        exact ⟨q, hq, rfl, rfl⟩

/-! ## Witnesses -/

theorem averageRating_mean_and_ratingCount_witness :
    getAverageRating samplePost = JsVal.str "4.0" ∧
    (toFixed1Int ((([5, 3] : List Int).sum : ℚ) / ([5, 3] : List Int).length) : ℚ) / 10
      = specAverageRating [5, 3] ∧
    (addRating sampleState "a" 4).2 = true := by
  have h2 := averageRating_mean_and_ratingCount.2.1 samplePost [5, 3] rfl (by decide)
  have h3 := averageRating_mean_and_ratingCount.2.2 sampleState "a" 4 samplePost rfl (by decide)
  refine ⟨?_, h2.2, h3.1⟩
  rw [h2.1]
  norm_num [jsToFixed1, toFixed1Int]
  rfl

theorem create_findById_roundtrip_witness :
    jsTrim "  Hello World  " ≠ "" ∧
    (addPost { posts := [], store := none, saves := 0 } "id1" 0
        "  Hello World  " "This is a test post").2.title = "Hello World" ∧
    getPostById (addPost { posts := [], store := none, saves := 0 } "id1" 0
        "  Hello World  " "This is a test post").1.posts "id1"
      = some (addPost { posts := [], store := none, saves := 0 } "id1" 0
          "  Hello World  " "This is a test post").2 := by
  have h := create_findById_roundtrip { posts := [], store := none, saves := 0 } "id1" 0
    "  Hello World  " "This is a test post" (by decide) (by decide)
  refine ⟨by decide, ?_, ?_⟩
  · rw [h.1]
    rfl
  · exact h.2.2.2.2.2.2

theorem missing_id_mutations_noop_witness :
    updatePost sampleState "zzz" "t" "c" 0 = (sampleState, false) ∧
    deletePost sampleState "zzz" = (sampleState, false) ∧
    addRating sampleState "zzz" 3 = (sampleState, false) ∧
    incrementViews sampleState "zzz" = (sampleState, false) :=
  missing_id_mutations_noop sampleState "zzz" "t" "c" 0 3 (by decide)

theorem delete_removes_exactly_target_witness :
    (deletePost sampleState "a").2 = true ∧
    getPostById (deletePost sampleState "a").1.posts "a" = none ∧
    (deletePost sampleState "a").1.posts.length + 1 = sampleState.posts.length := by
  have h := delete_removes_exactly_target sampleState "a" samplePost (by decide) rfl
  exact ⟨h.1, h.2.1, h.2.2.1⟩

theorem views_count_and_monotonicity_witness :
    (∃ q, getPostById (iterateIncrement "a" 3
        (addPost { posts := [], store := none, saves := 0 } "a" 0 "T" "C").1).posts "a"
      = some q ∧ q.views = some 3) ∧
    (({ samplePost with views := some 1 } : Post).views = some 0 ∨
      ∃ p ∈ sampleState.posts,
        p.id = ({ samplePost with views := some 1 } : Post).id ∧
        viewsOf p ≤ viewsOf { samplePost with views := some 1 }) := by
  constructor
  · obtain ⟨q, h1, h2⟩ := views_count_and_monotonicity.1
      { posts := [], store := none, saves := 0 } "a" 0 "T" "C" 3 (by intro p hp; cases hp)
    exact ⟨q, h1, by rw [h2]; norm_num⟩
  · exact views_count_and_monotonicity.2 sampleState (RepoOp.incView "a") _ (by decide)

theorem load_degrades_to_empty_witness :
    loadStore (some "definitely not json") = Json.arr [] :=
  load_degrades_to_empty.2 "definitely not json" rfl

theorem save_load_byte_identical_witness :
    loadStore (saveStore sampleJson) = sampleJson ∧
    saveStore (loadStore (saveStore sampleJson)) = saveStore sampleJson :=
  save_load_byte_identical sampleJson rfl

theorem legacy_fields_default_witness :
    (addRating sampleState "b" 4).2 = true ∧
    (incrementViews sampleState "b").2 = true ∧
    getAverageRating legacyPost = JsVal.num 0 ∧
    getRatingCount legacyPost = 0 := by
  have h := legacy_fields_default sampleState "b" 4 legacyPost rfl rfl rfl
  exact ⟨h.1, h.2.2.1, h.2.2.2.2.1, h.2.2.2.2.2⟩

theorem averageRating_return_type_split_witness :
    getAverageRating legacyPost = JsVal.num 0 ∧
    ∃ k : Int, getAverageRating samplePost
      = JsVal.str (toString (k / 10) ++ "." ++ toString (k % 10)) := by
  refine ⟨(averageRating_return_type_split legacyPost).1 (Or.inl rfl), ?_⟩
  exact (averageRating_return_type_split samplePost).2 [5, 3] rfl (by decide)

theorem detail_transition_increments_once_witness :
    ((showPostDetail sampleApp (some "a")).currentView = ViewMode.detail ∧
      ∃ q, getPostById (showPostDetail sampleApp (some "a")).repo.posts "a" = some q ∧
        q.views = some (viewsOf samplePost + 1)) ∧
    (∀ q ∈ (handleRatingClick sampleDetailApp 5).repo.posts,
      ∃ p ∈ sampleDetailApp.repo.posts, p.id = q.id ∧ q.views = p.views) := by
  constructor
  · exact detail_transition_increments_once.1 sampleApp "a" samplePost rfl
  · exact detail_transition_increments_once.2 sampleDetailApp 5 rfl

end Blog
